import Mathlib

/-!
Verification of the hermitage-alchemy core against its specification.

The definitions below are a shallow embedding of the Python source:
  * `configuration.py` — TrackUnit / Space / Address parsing and printing,
    `Schema.get_table` / `Schema.get_column`;
  * `assembling.py` — the postfix filter compiler and `Query._build_query`;
  * `execution/read.py` — `Squeezer` (nestify + collapse-none) and the
    result-assembly loop of `ReadExecutor.__call__`;
  * `execution/storing.py` — `invoice_separator` and `WriteClient.__call__`;
  * `plugins/total.py` — `TotalPlugin.get_result`.

Python strings are modelled as `List Char`; Python `dict`s (which preserve
insertion order) as association lists with dict-like insert/update semantics;
Python exceptions as `Except`/`Option` results with one constructor per
exception class observed in the source.
-/

set_option autoImplicit false

namespace Hermitage

/-- Python string, modelled as a list of characters. -/
abbrev Name := List Char

/-- Shorthand to write model strings from Lean string literals. -/
def nm (s : String) : Name := s.data

/-! ### Python `str.split` for the fixed separators of the source

`configuration.py` splits qualified names on the two-character nesting
separator `"__"` (`Space.__init__`, `Squeezer._split_rec`) and track-unit
parts on `":"`. Python's split is greedy left-to-right; the two-character
case needs two characters of lookahead. -/

/-- Worker for splitting on `"__"`: `acc` holds the current fragment reversed. -/
def splitUUAux : List Char → List Char → List (List Char)
  | [], acc => [acc.reverse]
  | [c], acc => [(c :: acc).reverse]
  | c1 :: c2 :: rest, acc =>
    if c1 = '_' ∧ c2 = '_' then
      acc.reverse :: splitUUAux rest []
    else
      splitUUAux (c2 :: rest) (c1 :: acc)

/-- Python `s.split("__")`. -/
def splitOnUU (s : List Char) : List (List Char) := splitUUAux s []

/-- Python `"__".join(parts)`. -/
def joinUU (parts : List (List Char)) : List Char :=
  match parts with
  | [] => []
  | [p] => p
  | p :: rest => p ++ '_' :: '_' :: joinUU rest

/-- Worker for splitting on `":"`. -/
def splitColonAux : List Char → List Char → List (List Char)
  | [], acc => [acc.reverse]
  | c :: rest, acc =>
    if c = ':' then acc.reverse :: splitColonAux rest []
    else splitColonAux rest (c :: acc)

/-- Python `s.split(":")`. -/
def splitOnColon (s : List Char) : List (List Char) := splitColonAux s []

/-! ### `configuration.py`: TrackUnit / Space / Address

`TrackUnit` is the dataclass of the source: `(name, qua, label)`, where
`str(unit) = label or qua or name` and
`unit.qualified_name = ":".join([name, qua or '', label or ''])`. -/

structure TrackUnit where
  name : Name
  qua : Option Name
  label : Option Name
  deriving DecidableEq, Repr

/-- `qua if qua else None` (Python truthiness on the empty string). -/
def optName (s : Name) : Option Name := if s = [] then none else some s

/-- `TrackUnit.__str__`: `label or qua or name`. Units built by the parser
never carry an empty-string qualifier/label, so `Option` order suffices. -/
def unitStr (u : TrackUnit) : Name := (u.label.getD (u.qua.getD u.name))

/-- `TrackUnit.qualified_name`: `":".join([name, qua or '', label or ''])`. -/
def unitQualifiedName (u : TrackUnit) : Name :=
  u.name ++ ':' :: (u.qua.getD []) ++ ':' :: (u.label.getD [])

/-- One track part of `Space.__init__`: split on `":"`; exactly 1, 2 or
3 components are accepted, anything longer raises (modelled as `none`). -/
def parseUnit (part : List Char) : Option TrackUnit :=
  match splitOnColon part with
  | [n] => some ⟨n, none, none⟩
  | [n, q] => some ⟨n, optName q, none⟩
  | [n, q, l] => some ⟨n, optName q, optName l⟩
  | _ => none

/-- A `Space` is the ordered track of units. -/
abbrev Space := List TrackUnit

/-- Parse every track part; fail if any part is malformed. -/
def parseUnits : List (List Char) → Option (List TrackUnit)
  | [] => some []
  | p :: rest => do pure ((← parseUnit p) :: (← parseUnits rest))

/-- `Space.__init__(name)`: split on `"__"`, parse each part. -/
def mkSpace (s : Name) : Option Space := parseUnits (splitOnUU s)

/-- `Space.__str__`: `"__".join(map(str, track))`. -/
def spaceStr (sp : Space) : Name := joinUU (sp.map unitStr)

/-- `Space.qualified_name`. -/
def spaceQualifiedName (sp : Space) : Name := joinUU (sp.map unitQualifiedName)

/-- `(column name, Space)` pair of `configuration.Address`. -/
structure AddressM where
  name : Name
  space : Space
  deriving DecidableEq, Repr

/-- `Address.__str__`: `f'{str(space)}__{name}'`. -/
def addrStr (a : AddressM) : Name := spaceStr a.space ++ '_' :: '_' :: a.name

/-- Modelled from the spec: "parsing its qualified alias back to an Address"
(§8 round-trip property). The source has no address parser of its own — its
`Space` constructor splits on `"__"` and parses each part — so the natural
inverse of `Address.__str__` takes the last `"__"`-part as the column name
and parses the remaining parts as the space's track units. -/
def addressOfString (s : Name) : Option AddressM :=
  let parts := splitOnUU s
  match parts.getLast?, parseUnits parts.dropLast with
  | some n, some sp => some ⟨n, sp⟩
  | _, _ => none

/-! ### `configuration.py`: Schema table/column resolution

Exceptions of the modelled code: `AttributeError` (attribute access on
`None` or a missing column on `table.c`), `IndexError` (`space[-1]` on an
empty track), `ValueError` (`Space.__init__` unpacking too many `":"`
parts). `Schema.get_column` catches exactly `AttributeError`. -/

inductive PyErr where
  | attrError
  | indexError
  | valueError
  | runtimeError
  deriving DecidableEq, Repr

/-- A physical table: its name and column names. -/
structure STable where
  name : Name
  columns : List Name
  deriving DecidableEq, Repr

/-- A resolved table handle: the table, possibly under an alias
(`table.alias(str(space))`). -/
structure RTable where
  table : STable
  aliasName : Option Name
  deriving DecidableEq, Repr

/-- The table metadata the schema was constructed from. -/
structure SchemaM where
  tables : List STable
  deriving DecidableEq, Repr

/-- A resolved column: its table handle, bare name, and the alias label
applied by `get_column` when the address is nested. -/
structure ColumnM where
  rtable : RTable
  name : Name
  label : Option Name
  deriving DecidableEq, Repr

/-- `Schema.get_table`: resolve the table named by the final track unit;
a qualifier or label makes it an aliased handle.  `None.alias(...)` on an
unknown table with a qualified unit raises `AttributeError`; `space[-1]`
of an empty track raises `IndexError`. -/
def getTableE (s : SchemaM) (sp : Space) : Except PyErr (Option RTable) :=
  match sp.getLast? with
  | none => .error .indexError
  | some u =>
    match s.tables.find? (fun t => t.name = u.name) with
    | none =>
      if u.label.isSome ∨ u.qua.isSome then .error .attrError
      else .ok none
    | some t =>
      if u.label.isSome ∨ u.qua.isSome then .ok (some ⟨t, some (spaceStr sp)⟩)
      else .ok (some ⟨t, none⟩)

/-- Body of the `try:` block of `Schema.get_column`: resolve the table
(`None.c` raises `AttributeError`), fetch the column attribute
(`AttributeError` when absent), then — when `space.slice(1, None)` is
non-empty — re-parse the sliced track's string form (as `Space.slice`
does) and label the column with `str(Address(name, sliced))`. -/
def getColumnRaw (s : SchemaM) (a : AddressM) : Except PyErr ColumnM :=
  match getTableE s a.space with
  | .error e => .error e
  | .ok none => .error .attrError
  | .ok (some rt) =>
    if a.name ∈ rt.table.columns then
      match a.space.drop 1 with
      | [] => .ok ⟨rt, a.name, none⟩
      | sl =>
        match mkSpace (joinUU (sl.map unitStr)) with
        | none => .error .valueError
        | some sp2 => .ok ⟨rt, a.name, some (addrStr ⟨a.name, sp2⟩)⟩
    else .error .attrError

/-- `Schema.get_column`: the `try/except AttributeError: return None`
wrapper. Exceptions other than `AttributeError` propagate. -/
def get_column (s : SchemaM) (a : AddressM) : Except PyErr (Option ColumnM) :=
  match getColumnRaw s a with
  | .ok c => .ok (some c)
  | .error .attrError => .ok none
  | .error e => .error e

/-! ### Result values and Python dict operations

Rows coming back from the driver and the nested results assembled from
them are modelled by `PyVal`; Python `dict`s are association lists with
insertion-order semantics (`d[k] = v` updates in place or appends). -/

inductive PyVal where
  | pnone
  | pstr (s : Name)
  | pint (n : Int)
  | obj (fields : List (Name × PyVal))
  | arr (items : List PyVal)

/-- Python `v is None`. -/
def isPNone : PyVal → Bool
  | .pnone => true
  | _ => false

/-- Python `==` on dict keys. The keys of the child indexes built by
`_index_data` are column values read from rows (scalars or `None`);
containers are not hashable in Python and cannot be dict keys. -/
def pyBeq : PyVal → PyVal → Bool
  | .pnone, .pnone => true
  | .pstr a, .pstr b => decide (a = b)
  | .pint a, .pint b => decide (a = b)
  | _, _ => false

/-- A mapping's items, in insertion order. -/
abbrev Fields := List (Name × PyVal)

/-- Python `d[k]` as an optional lookup. -/
def getField : Fields → Name → Option PyVal
  | [], _ => none
  | (k, v) :: rest, key => if k = key then some v else getField rest key

/-- Python `k in d`. -/
def hasField (fs : Fields) (k : Name) : Bool := (getField fs k).isSome

/-- Python `d.get(k)`: absent keys give `None`. -/
def getFieldD (fs : Fields) (k : Name) : PyVal := (getField fs k).getD .pnone

/-- Python `d[k] = v`: update in place, else append. -/
def setField : Fields → Name → PyVal → Fields
  | [], key, v => [(key, v)]
  | (k, w) :: rest, key, v =>
    if k = key then (k, v) :: rest else (k, w) :: setField rest key v

/-- Python `del d[k]` (dict keys are unique, so first occurrence). -/
def delField : Fields → Name → Fields
  | [], _ => []
  | (k, v) :: rest, key => if k = key then rest else (k, v) :: delField rest key

/-! ### `execution/read.py`: `Squeezer` (nestify and collapse-none) -/

/-- `Squeezer._split_rec`, with the key pre-split on `"__"` (Python's
repeated `k.split(sep, 1)` walks exactly the parts of the full split):
descend through existing nested dicts (`out.setdefault(k, {})`), create
missing levels, and assign the value at the last part. A non-dict value
met on the way makes the Python code raise (modelled as `none`). -/
def insertPath : List Name → PyVal → Fields → Option Fields
  | [], _, out => some out
  | [k], v, out => some (setField out k v)
  | k :: k2 :: ks, v, out =>
    match getField out k with
    | none => do
        let inner ← insertPath (k2 :: ks) v []
        pure (out ++ [(k, .obj inner)])
    | some (.obj fs) => do
        let inner ← insertPath (k2 :: ks) v fs
        pure (setField out k (.obj inner))
    | some _ => none

mutual

/-- `Squeezer._nestify`: strings/bytes and scalars pass through; mappings
are rebuilt key-by-key via `_split_rec`; other iterables map recursively. -/
def nestifyVal : PyVal → Option PyVal
  | .pnone => some .pnone
  | .pstr s => some (.pstr s)
  | .pint n => some (.pint n)
  | .obj fs => do pure (.obj (← nestifyFields fs []))
  | .arr items => do pure (.arr (← nestifyArr items))

/-- The `for k, v in data.items(): self._split_rec(k, self._nestify(v), result)`
loop, threading the result dict. -/
def nestifyFields : List (Name × PyVal) → Fields → Option Fields
  | [], out => some out
  | (k, v) :: rest, out => do
      let v2 ← nestifyVal v
      let out2 ← insertPath (splitOnUU k) v2 out
      nestifyFields rest out2

def nestifyArr : List PyVal → Option (List PyVal)
  | [] => some []
  | v :: rest => do pure ((← nestifyVal v) :: (← nestifyArr rest))

end

/-- `any(_ is not None for _ in v.values())` — the collapse test looks only
at a mapping's direct values. -/
def anyEntryNonNone (fs : Fields) : Bool :=
  fs.any (fun p => !(isPNone p.2))

mutual

/-- `Squeezer._collapse_none` over a mapping's items: a mapping value whose
direct values are all `None` becomes `None`, otherwise it is collapsed
recursively; a list value collapses each element, which the source assumes
to be a mapping (anything else raises, modelled as `none`).  The source's
second `isinstance(v, list)` test only fires for values that were lists to
begin with (the mapping branch yields a dict or `None`), so one match on
the original value covers both tests. -/
def collapseFields : Fields → Option Fields
  | [] => some []
  | (k, v) :: rest => do
      let v2 ← match v with
        | PyVal.obj fs =>
            if anyEntryNonNone fs then do pure (PyVal.obj (← collapseFields fs))
            else pure PyVal.pnone
        | PyVal.arr items => do pure (PyVal.arr (← collapseArr items))
        | x => pure x
      pure ((k, v2) :: (← collapseFields rest))

def collapseArr : List PyVal → Option (List PyVal)
  | [] => some []
  | v :: rest => do
      match v with
      | PyVal.obj fs => pure (PyVal.obj (← collapseFields fs) :: (← collapseArr rest))
      | _ => none

end

/-- `Squeezer.__call__`: nestify, then the collapse-none pass. -/
def squeeze (row : Fields) : Option Fields := do
  collapseFields (← nestifyFields row [])

/-! ### `execution/read.py`: result assembly of `ReadExecutor.__call__` -/

/-- `configuration.TOTAL_QUERY_FIELD = "_total"`. -/
def TOTAL_QUERY_FIELD : Name := nm "_total"

/-- The per-child index built by `ReadExecutor._index_data`: parent-key
value to the list of (transformed) child rows, in returned order. -/
abbrev IndexMap := List (PyVal × List Fields)

/-- `v.get(key, [])` on the child index. -/
def idxLookup : IndexMap → PyVal → List Fields
  | [], _ => []
  | (k, rows) :: rest, key => if pyBeq k key then rows else idxLookup rest key

/-- One entry of `nested_indexed_data`: the `(substitution_name,
source key column)` pair and the indexed child rows. -/
abbrev NestedEntry := (Name × Name) × IndexMap

/-- `for k, v in nested_indexed_data.items(): row[k[0]] = v.get(row.get(k[1]), [])`. -/
def attachRow : List NestedEntry → Fields → Fields
  | [], row => row
  | ((sub, keyCol), idx) :: rest, row =>
      attachRow rest
        (setField row sub (PyVal.arr ((idxLookup idx (getFieldD row keyCol)).map PyVal.obj)))

/-- The per-row branch of the loop in `ReadExecutor.__call__`: either keep
the raw row (`is_nested` call with pending child data) or squeeze it and,
when the synthetic total field is present, record it into `meta` once
(`if meta is None`) and delete the field. -/
def readRowStep (isNested : Bool) (nested : List NestedEntry) (meta : Option PyVal)
    (row : Fields) : Option (Fields × Option PyVal) :=
  if isNested && !nested.isEmpty then some (row, meta)
  else
    match squeeze row with
    | none => none
    | some r =>
      if hasField r TOTAL_QUERY_FIELD then
        some (delField r TOTAL_QUERY_FIELD,
              match meta with
              | none => some (getFieldD r TOTAL_QUERY_FIELD)
              | some m => some m)
      else some (r, meta)

/-- The result-assembly loop of `ReadExecutor.__call__` (read.py 153-168):
process each row per `readRowStep`, then attach the indexed child lists
and collect the row. -/
def readRows (isNested : Bool) (nested : List NestedEntry) :
    List Fields → Option PyVal → Option (List Fields × Option PyVal)
  | [], meta => some ([], meta)
  | row :: rest, meta =>
    match readRowStep isNested nested meta row with
    | none => none
    | some (row1, meta1) =>
      match readRows isNested nested rest meta1 with
      | none => none
      | some (dataRest, metaOut) => some (attachRow nested row1 :: dataRest, metaOut)

/-- The meta the loop reports: an already-extracted total wins; otherwise
the first row's total; no rows means no meta. -/
def headTotalMeta (meta0 : Option PyVal) (rows : List Fields) : Option PyVal :=
  match meta0 with
  | some m => some m
  | none =>
    match rows with
    | [] => none
    | r :: _ => some (getFieldD r TOTAL_QUERY_FIELD)

/-- `meta = None` before the loop; the loop returns the view's data rows
and the extracted total (reported as `{'total': v}` when present). -/
def readLoop (isNested : Bool) (nested : List NestedEntry) (rows : List Fields) :
    Option (List Fields × Option PyVal) :=
  readRows isNested nested rows none

/-! ### `plugins/total.py` -/

/-- `plugins/total.py` `FIELD_NAME = "total"`. -/
def TOTAL_FIELD_NAME : Name := nm "total"

/-- `TotalPlugin.get_result`: `{total: data[0][total]}` from the rows the
plugin captured, or `{total: 0}` when no rows were returned (`data[0][...]`
on a row lacking the field would raise, modelled as `none`). -/
def totalPluginResult (data : List Fields) : Option Fields :=
  match data with
  | [] => some [(TOTAL_FIELD_NAME, PyVal.pint 0)]
  | row :: _ =>
    match getField row TOTAL_FIELD_NAME with
    | some v => some [(TOTAL_FIELD_NAME, v)]
    | none => none

/-! ### `assembling.py`: the filter clause compiler

Operator objects of the zodchy vocabulary that the compiler dispatches on.
`RANGE` carries up to two optional bound conditions, which in requests are
comparison operators; the source builds `Clause(name, condition)` for each
non-`None` bound and compiles it through the same dispatch table. -/

inductive Lit where
  | lint (n : Int)
  | lstr (s : Name)
  | lnull
  deriving DecidableEq, Repr

inductive CmpKind where
  | eq | ne | le | lt | ge | gt
  deriving DecidableEq, Repr

inductive FOp where
  | cmp (k : CmpKind) (v : Lit)
  | isOp (v : Lit)
  | likeOp (v : Name) (caseSensitive : Bool)
  | setOp (vs : List Lit)
  | rangeOp (bounds : List (Option (CmpKind × Lit)))
  deriving DecidableEq, Repr

/-- An atomic clause `(column name, operation)`. -/
structure FClause where
  name : Name
  op : FOp
  deriving DecidableEq, Repr

/-- A value living on the compiler's stack: a compiled sqlalchemy
expression (comparison, `is`, like, `in`, conjunction, disjunction), a raw
uncompiled notation `Clause` object, or Python `None` — the latter two
because `_range_clause` returns `params[0]` (an uncompiled `Clause`) for a
single bound and falls through to `None` for no bounds. -/
inductive Val where
  | cmp (col : ColumnM) (k : CmpKind) (v : Lit)
  | isV (col : ColumnM) (v : Lit)
  | likeV (col : ColumnM) (pattern : Name) (caseSensitive : Bool) (inverted : Bool)
  | inV (col : ColumnM) (vs : List Lit) (inverted : Bool)
  | colEq (a b : ColumnM)
  | conj (a b : Val)
  | disj (a b : Val)
  | rawClause (c : FClause)
  | pynone
  deriving DecidableEq, Repr

/-- `FilterCompiler._get_column`: no bound namespace raises `RuntimeError`;
an unresolvable column raises `ValueError`; other schema exceptions
propagate. -/
def compilerGetColumn (s : SchemaM) (sp? : Option Space) (cname : Name) :
    Except PyErr ColumnM :=
  match sp? with
  | none => .error .runtimeError
  | some sp =>
    match get_column s ⟨cname, sp⟩ with
    | .ok (some c) => .ok c
    | .ok none => .error .valueError
    | .error e => .error e

/-- Compile one comparison bound of a `RANGE`
(`Clause(clause.name, condition)` through `_simple_clause`). -/
def compileRangeBound (s : SchemaM) (sp? : Option Space) (cname : Name)
    (kv : CmpKind × Lit) : Except PyErr Val := do
  pure (Val.cmp (← compilerGetColumn s sp? cname) kv.1 kv.2)

/-- `sqlalchemy.and_` over the compiled bounds (variadic, modelled as a
left fold of binary conjunctions). -/
def conjBounds (s : SchemaM) (sp? : Option Space) (cname : Name) :
    Val → List (CmpKind × Lit) → Except PyErr Val
  | acc, [] => pure acc
  | acc, kv :: rest => do
      conjBounds s sp? cname (Val.conj acc (← compileRangeBound s sp? cname kv)) rest

/-- `FilterCompiler._range_clause`: collect the non-`None` bounds as
clauses; more than one bound compiles each and conjoins them
(`_logic_clause(and_)`); exactly one bound returns `params[0]` — the raw
uncompiled `Clause` object; zero bounds fall off the function (`None`). -/
def rangeClause (s : SchemaM) (sp? : Option Space) (cname : Name)
    (bounds : List (Option (CmpKind × Lit))) : Except PyErr Val :=
  let params := bounds.filterMap id
  match params with
  | [] => pure Val.pynone
  | [kv] => pure (Val.rawClause ⟨cname, .cmp kv.1 kv.2⟩)
  | kv1 :: kv2 :: rest => do
      let v1 ← compileRangeBound s sp? cname kv1
      let v2 ← compileRangeBound s sp? cname kv2
      conjBounds s sp? cname (Val.conj v1 v2) rest

/-- The `_operations` dispatch on an atomic clause. -/
def compileAtom (s : SchemaM) (sp? : Option Space) (c : FClause) :
    Except PyErr Val :=
  match c.op with
  | .cmp k v => do pure (Val.cmp (← compilerGetColumn s sp? c.name) k v)
  | .isOp v => do pure (Val.isV (← compilerGetColumn s sp? c.name) v)
  | .likeOp v cs => do
      let col ← compilerGetColumn s sp? c.name
      pure (Val.likeV col ('%' :: v ++ ['%']) cs false)
  | .setOp vs => do
      let col ← compilerGetColumn s sp? c.name
      pure (Val.inV col vs false)
  | .rangeOp bounds => rangeClause s sp? c.name bounds

/-- One element of a postfix clause expression. -/
inductive ExElem where
  | atom (c : FClause)
  | andT
  | orT
  deriving DecidableEq, Repr

/-- The postfix loop of `FilterCompiler._compile`: atoms are compiled and
pushed; `AND`/`OR` pop two operands (`deque.pop` on an empty stack raises
`IndexError`) and push the combination. The head of the list is the top of
the stack. -/
def compileSteps (s : SchemaM) (sp? : Option Space) :
    List ExElem → List Val → Except PyErr (List Val)
  | [], stack => .ok stack
  | .andT :: rest, stack =>
    match stack with
    | a :: b :: t => compileSteps s sp? rest (Val.conj a b :: t)
    | _ => .error .indexError
  | .orT :: rest, stack =>
    match stack with
    | a :: b :: t => compileSteps s sp? rest (Val.disj a b :: t)
    | _ => .error .indexError
  | .atom c :: rest, stack => do
      let v ← compileAtom s sp? c
      compileSteps s sp? rest (v :: stack)

/-- `FilterCompiler._compile`: run the loop on an empty stack, then
`return stack.pop()` — the most recently pushed element, whatever the
final stack size; an empty final stack raises `IndexError`. -/
def compileExpr (s : SchemaM) (sp? : Option Space) (es : List ExElem) :
    Except PyErr Val := do
  match ← compileSteps s sp? es [] with
  | v :: _ => pure v
  | [] => .error .indexError

/-! ### `assembling.py`: `Query._build_query` -/

/-- A write-value mapping carried by an `Item`. -/
abbrev WRow := List (Name × Lit)

/-- An entry of the accumulated select list: a resolved column or the
`count(*) over () as _total` text added for a `Total` marker. -/
inductive SelItem where
  | col (c : ColumnM)
  | totalText
  deriving DecidableEq, Repr

inductive OrdDir where
  | asc | desc
  deriving DecidableEq, Repr

abbrev OrdItem := OrdDir × ColumnM

/-- The accumulators of a `Query` instance after `_process_bucket` ran. -/
structure QState where
  select : List SelItem
  joins : List (RTable × RTable × Val)
  values : List WRow
  filters : List Val
  orders : List OrdItem
  limit : Option Int
  offset : Option Int
  deriving DecidableEq, Repr

inductive StmtCore where
  | selectQ (cols : List SelItem)
  | insertQ (table : RTable) (rows : List WRow)
  | updateQ (table : RTable) (row : WRow)
  | deleteQ (table : RTable)
  deriving DecidableEq, Repr

/-- The statement returned by `_build_query`: its core plus the uniformly
applied joins, where-clauses, order keys and pagination (`if self._limit:`
treats 0 as unset). -/
structure BuiltQuery where
  core : StmtCore
  joins : List (RTable × RTable × Val)
  whereClauses : List Val
  orderClauses : List OrdItem
  limit : Option Int
  offset : Option Int
  deriving DecidableEq, Repr

inductive BuildErr where
  | spaceError
  | tableNotFound
  | cannotDetermineOperation
  | pyError (e : PyErr)
  deriving DecidableEq, Repr

/-- Python truthiness of a pagination value: 0 and `None` are unset. -/
def truthyInt : Option Int → Option Int
  | some v => if v = 0 then none else some v
  | none => none

/-- `Query._build_query`: a non-empty select list always yields a select;
otherwise the bucket's table is resolved (`ValueError` when unknown) and
the collected values/filters decide among update (first value row only),
insert (all rows), delete, or the `"Cannot determine operation type"`
error; joins, filters, orders, limit and offset are then applied to
whatever statement was built. -/
def buildQuery (schema : SchemaM) (bucketName : Name) (st : QState) :
    Except BuildErr BuiltQuery :=
  let deco : StmtCore → BuiltQuery := fun core =>
    ⟨core, st.joins, st.filters, st.orders, truthyInt st.limit, truthyInt st.offset⟩
  match st.select with
  | _ :: _ => .ok (deco (.selectQ st.select))
  | [] =>
    match mkSpace bucketName with
    | none => .error .spaceError
    | some sp =>
      match getTableE schema sp with
      | .error e => .error (.pyError e)
      | .ok none => .error .tableNotFound
      | .ok (some t) =>
        match st.values, st.filters with
        | v :: _, _ :: _ => .ok (deco (.updateQ t v))
        | _ :: _, [] => .ok (deco (.insertQ t st.values))
        | [], _ :: _ => .ok (deco (.deleteQ t))
        | [], [] => .error .cannotDetermineOperation

/-! ### `execution/storing.py`: invoice separation and write classification -/

/-- An element of a write invoice: a value row, a filter clause, or a
plugin beacon (`MetaElement`, identified here by a tag). -/
inductive InvElem where
  | row (r : WRow)
  | clause (c : FClause)
  | meta (tag : Nat)
  deriving DecidableEq, Repr

/-- The `(data, clause, beacons)` triple of `invoice_separator`; chained
clauses (`clause += element`) are kept as the list of combined clauses. -/
structure SepResult where
  data : Option (List WRow)
  clause : Option (List FClause)
  beacons : Option (List Nat)
  deriving DecidableEq, Repr

def invoiceSepStep (acc : SepResult) : InvElem → SepResult
  | .row r => ⟨some ((acc.data.getD []) ++ [r]), acc.clause, acc.beacons⟩
  | .clause c => ⟨acc.data, some ((acc.clause.getD []) ++ [c]), acc.beacons⟩
  | .meta m => ⟨acc.data, acc.clause, some ((acc.beacons.getD []) ++ [m])⟩

/-- `invoice_separator`: fold the invoice elements into the triple. -/
def invoice_separator (es : List InvElem) : SepResult :=
  es.foldl invoiceSepStep ⟨none, none, none⟩

/-- A statement issued by `WriteExecutor`. -/
inductive WriteStmt where
  | insertS (rows : List WRow)
  | updateS (row : WRow) (clause : List FClause)
  | deleteS (clause : List FClause)
  deriving DecidableEq, Repr

/-- `WriteClient.__call__` on the invoice as it stands after plugin
application: delete when only a clause is present, insert of all rows when
only data is present, one update per row when both are, and nothing at all
when neither is. -/
def writeCall (es : List InvElem) : List WriteStmt :=
  let sep := invoice_separator es
  match sep.data, sep.clause with
  | none, some c => [.deleteS c]
  | some d, none => [.insertS d]
  | some d, some c => d.map (fun r => .updateS r c)
  | none, none => []

/-! ### Classifiers and spec-side predicates used by the theorems -/

/-- Is this invoice element a value row? -/
def isRowElem : InvElem → Bool
  | .row _ => true
  | _ => false

/-- Is this invoice element a filter clause? -/
def isClauseElem : InvElem → Bool
  | .clause _ => true
  | _ => false

/-- The table-resolution step at the head of `_build_query`:
`self._schema.get_table(Space(bucket.name))`, successful outcomes only. -/
def resolveBucketTable (schema : SchemaM) (bn : Name) : Option RTable :=
  match mkSpace bn with
  | none => none
  | some sp =>
    match getTableE schema sp with
    | .ok (some t) => some t
    | _ => none

/-- Does this `Except` hold a success value? -/
def isOkE {α : Type} (e : Except PyErr α) : Bool :=
  match e with
  | .ok _ => true
  | .error _ => false

/-- Every atom of the expression compiles (its column resolves). -/
def atomsOk (s : SchemaM) (sp? : Option Space) (es : List ExElem) : Bool :=
  es.all (fun e =>
    match e with
    | .atom c => isOkE (compileAtom s sp? c)
    | _ => true)

/-- Modelled from the spec: a postfix clause expression is well-formed when
every `AND`/`OR` finds two operands on the stack and exactly one element
remains at the end (`n` tracks the stack height). -/
def wfFrom : List ExElem → Nat → Bool
  | [], n => n == 1
  | .atom _ :: rest, n => wfFrom rest (n + 1)
  | .andT :: rest, n => decide (2 ≤ n) && wfFrom rest (n - 1)
  | .orT :: rest, n => decide (2 ≤ n) && wfFrom rest (n - 1)

mutual

/-- Modelled from the spec: "every leaf value inside it is absent/null"
(a leaf being a non-mapping value; the claim's scope has no lists). -/
def allLeavesNull : PyVal → Bool
  | .pnone => true
  | .obj fs => allLeavesNullFields fs
  | _ => false

def allLeavesNullFields : List (Name × PyVal) → Bool
  | [] => true
  | (_, v) :: rest => allLeavesNull v && allLeavesNullFields rest

end

/-- A scalar (non-container) value. -/
def isAtomicVal : PyVal → Bool
  | .obj _ => false
  | .arr _ => false
  | _ => true

/-- A flat driver row: separator-free unique keys, atomic values, and the
synthetic total field present — the shape of rows a top-level select with
a total marker returns. -/
def FlatTotalRow (row : Fields) : Prop :=
  (∀ p ∈ row, splitOnUU p.1 = [p.1] ∧ isAtomicVal p.2 = true) ∧
  (row.map Prod.fst).Nodup ∧ hasField row TOTAL_QUERY_FIELD = true

instance (row : Fields) : Decidable (FlatTotalRow row) := by
  unfold FlatTotalRow
  infer_instance

/-! ### Concrete fixtures used by witnesses and counterexamples -/

def bookTable : STable := ⟨nm "book", [nm "id", nm "title"]⟩

def sch0 : SchemaM := ⟨[bookTable]⟩

def bookT : RTable := ⟨bookTable, none⟩

def sp0 : Space := [⟨nm "book", none, none⟩]

def col_id : ColumnM := ⟨bookT, nm "id", none⟩

def col_title : ColumnM := ⟨bookT, nm "title", none⟩

def row_x : WRow := [(nm "title", Lit.lstr (nm "X"))]

def row_y : WRow := [(nm "title", Lit.lstr (nm "Y"))]

/-- Builder state with two collected value rows and a filter. -/
def st7 : QState := ⟨[], [], [row_x, row_y], [Val.cmp col_id .eq (.lint 5)], [], none, none⟩

/-- Builder state with nothing collected. -/
def stEmpty : QState := ⟨[], [], [], [], [], none, none⟩

/-- A schema with tables `a` and `b(c)` for the nested-address fixtures. -/
def sch4 : SchemaM := ⟨[⟨nm "a", []⟩, ⟨nm "b", [nm "c"]⟩]⟩

/-- The depth-2 address `a__b` / column `c`. -/
def addr4 : AddressM := ⟨nm "c", [⟨nm "a", none, none⟩, ⟨nm "b", none, none⟩]⟩

/-- Two flat rows carrying the synthetic `_total` field with count 7. -/
def rows2 : List Fields :=
  [[(TOTAL_QUERY_FIELD, PyVal.pint 7), (nm "id", PyVal.pint 1)],
   [(TOTAL_QUERY_FIELD, PyVal.pint 7)]]

/-- A one-entry child index mapping parent key 1 to one review row. -/
def nestedW : List NestedEntry :=
  [((nm "reviews", nm "id"), [(PyVal.pint 1, [[(nm "text", PyVal.pstr (nm "ok"))]])])]

/-- A parent row whose key 2 has no children in the index. -/
def rowW : Fields := [(nm "id", PyVal.pint 2)]

/-! ### Plain-name round trips -/

/-- A unit produced from a bare, separator-free table name. -/
def PlainUnit (u : TrackUnit) : Prop :=
  u.qua = none ∧ u.label = none ∧ '_' ∉ u.name ∧ ':' ∉ u.name

instance (u : TrackUnit) : Decidable (PlainUnit u) := by
  unfold PlainUnit
  infer_instance

theorem splitUUAux_chew (p : List Char) (hp : '_' ∉ p) :
    ∀ (l acc : List Char), splitUUAux (p ++ l) acc = splitUUAux l (p.reverse ++ acc) := by
  induction p with
  | nil => intro l acc; simp
  | cons c p' ih =>
    intro l acc
    have hc : c ≠ '_' := fun h => hp (h ▸ List.mem_cons_self c p')
    have hp' : '_' ∉ p' := fun h => hp (List.mem_cons_of_mem c h)
    cases hpl : p' ++ l with
    | nil =>
      rcases List.append_eq_nil.mp hpl with ⟨h1, h2⟩
      subst h1; subst h2
      simp [splitUUAux]
    | cons c2 t =>
      have : splitUUAux (c :: c2 :: t) acc = splitUUAux (c2 :: t) (c :: acc) := by
        simp only [splitUUAux]
        rw [if_neg]
        rintro ⟨h1, _⟩; exact hc h1
      calc splitUUAux ((c :: p') ++ l) acc
          = splitUUAux (c :: c2 :: t) acc := by rw [List.cons_append, hpl]
        _ = splitUUAux (c2 :: t) (c :: acc) := this
        _ = splitUUAux (p' ++ l) (c :: acc) := by rw [hpl]
        _ = splitUUAux l (p'.reverse ++ (c :: acc)) := ih hp' l (c :: acc)
        _ = splitUUAux l ((c :: p').reverse ++ acc) := by
              simp [List.reverse_cons, List.append_assoc]

theorem splitUUAux_sep (l acc : List Char) :
    splitUUAux ('_' :: '_' :: l) acc = acc.reverse :: splitUUAux l [] := by
  simp [splitUUAux]

/-- Round trip of the `"__"` split against the `"__"` join, for parts free of
underscores (true of all table/column names this claim quantifies over). -/
theorem splitOnUU_joinUU (parts : List (List Char))
    (hne : parts ≠ []) (hclean : ∀ p ∈ parts, '_' ∉ p) :
    splitOnUU (joinUU parts) = parts := by
  induction parts with
  | nil => exact absurd rfl hne
  | cons p rest ih =>
    cases rest with
    | nil =>
      have hp : '_' ∉ p := hclean p (List.mem_cons_self p [])
      have h := splitUUAux_chew p hp [] []
      simpa [splitOnUU, joinUU, splitUUAux] using h
    | cons q rest' =>
      have hp : '_' ∉ p := hclean p (List.mem_cons_self p _)
      have hrest : ∀ r ∈ q :: rest', '_' ∉ r :=
        fun r hr => hclean r (List.mem_cons_of_mem p hr)
      show splitUUAux (p ++ '_' :: '_' :: joinUU (q :: rest')) [] = p :: q :: rest'
      rw [splitUUAux_chew p hp _ [], splitUUAux_sep]
      simp only [List.append_nil, List.reverse_reverse]
      exact congrArg (p :: ·) (ih (by simp) hrest)

/-- A string with no `"__"` substring splits to itself (e.g. `"_total"`). -/
theorem splitUUAux_noSep (l : List Char) (h : ∀ i, ¬(l.get? i = some '_' ∧ l.get? (i+1) = some '_')) :
    ∀ acc, splitUUAux l acc = [acc.reverse ++ l] := by
  induction l with
  | nil => intro acc; simp [splitUUAux]
  | cons c t ih =>
    intro acc
    cases t with
    | nil => simp [splitUUAux]
    | cons c2 t' =>
      have hcc : ¬(c = '_' ∧ c2 = '_') := by
        intro ⟨h1, h2⟩
        exact h 0 ⟨by simp [h1], by simp [h2]⟩
      have ht : ∀ i, ¬((c2 :: t').get? i = some '_' ∧ (c2 :: t').get? (i+1) = some '_') := by
        intro i hi
        exact h (i+1) hi
      simp only [splitUUAux, if_neg hcc]
      rw [ih ht (c :: acc)]
      simp


theorem splitColonAux_noColon (l : List Char) (h : ':' ∉ l) :
    ∀ acc, splitColonAux l acc = [acc.reverse ++ l] := by
  induction l with
  | nil => intro acc; simp [splitColonAux]
  | cons c t ih =>
    intro acc
    have hc : c ≠ ':' := fun hc => h (hc ▸ List.mem_cons_self c t)
    have ht : ':' ∉ t := fun hm => h (List.mem_cons_of_mem c hm)
    simp only [splitColonAux, if_neg hc]
    rw [ih ht (c :: acc)]
    simp

theorem parseUnit_plain (n : Name) (h : ':' ∉ n) : parseUnit n = some ⟨n, none, none⟩ := by
  have hs : splitOnColon n = [n] := by
    have := splitColonAux_noColon n h []
    simpa [splitOnColon] using this
  simp [parseUnit, hs]

theorem unitStr_plain (u : TrackUnit) (h : PlainUnit u) : unitStr u = u.name := by
  obtain ⟨hq, hl, -, -⟩ := h
  simp [unitStr, hq, hl]

theorem parseUnit_unitStr_plain (u : TrackUnit) (hu : PlainUnit u) :
    parseUnit (unitStr u) = some u := by
  rw [unitStr_plain u hu, parseUnit_plain u.name hu.2.2.2]
  obtain ⟨hq, hl, -, -⟩ := hu
  cases u
  simp_all

theorem parseUnits_map_unitStr (l : List TrackUnit) (h : ∀ u ∈ l, PlainUnit u) :
    parseUnits (l.map unitStr) = some l := by
  induction l with
  | nil => rfl
  | cons u t ih =>
    have hparse := parseUnit_unitStr_plain u (h u (List.mem_cons_self u t))
    have ht := ih (fun v hv => h v (List.mem_cons_of_mem u hv))
    simp [parseUnits, hparse, ht]

/-- `Space(str(space)) = space` for tracks of plain units. -/
theorem mkSpace_spaceStr (sp : Space) (hne : sp ≠ [])
    (h : ∀ u ∈ sp, PlainUnit u) : mkSpace (spaceStr sp) = some sp := by
  have hsplit : splitOnUU (joinUU (sp.map unitStr)) = sp.map unitStr := by
    apply splitOnUU_joinUU
    · simpa using hne
    · intro p hp
      obtain ⟨u, hu, rfl⟩ := List.mem_map.mp hp
      rw [unitStr_plain u (h u hu)]
      exact (h u hu).2.2.1
  rw [mkSpace, spaceStr, hsplit]
  exact parseUnits_map_unitStr sp h

/-! ### Dict-operation lemmas -/

theorem getField_setField_self (fs : Fields) (k : Name) (v : PyVal) :
    getField (setField fs k v) k = some v := by
  induction fs with
  | nil => simp [setField, getField]
  | cons p rest ih =>
    obtain ⟨k', w⟩ := p
    by_cases h : k' = k
    · subst h; simp [setField, getField]
    · simp [setField, getField, h, ih]

theorem getField_setField_ne (fs : Fields) (k key : Name) (v : PyVal) (h : k ≠ key) :
    getField (setField fs key v) k = getField fs k := by
  have hne : ¬(key = k) := fun h2 => h h2.symm
  induction fs with
  | nil =>
    simp only [setField, getField]
    exact if_neg hne
  | cons p rest ih =>
    obtain ⟨k', w⟩ := p
    by_cases h2 : k' = key
    · subst h2
      simp only [setField, if_pos rfl, getField]
      rw [if_neg hne, if_neg hne]
    · simp only [setField, if_neg h2, getField, ih]

theorem setField_of_getField_none (fs : Fields) (k : Name) (v : PyVal)
    (h : getField fs k = none) : setField fs k v = fs ++ [(k, v)] := by
  induction fs with
  | nil => simp [setField]
  | cons p rest ih =>
    obtain ⟨k', w⟩ := p
    by_cases h2 : k' = k
    · subst h2; simp [getField] at h
    · simp only [getField, if_neg h2] at h
      simp [setField, h2, ih h]

theorem getField_append_left_none (l1 l2 : Fields) (k : Name)
    (h : getField l1 k = none) : getField (l1 ++ l2) k = getField l2 k := by
  induction l1 with
  | nil => simp
  | cons p rest ih =>
    obtain ⟨k', w⟩ := p
    by_cases h2 : k' = k
    · subst h2; simp [getField] at h
    · simp only [getField, if_neg h2] at h
      simp [getField, h2, ih h]

/-! ### C10 — empty write invoice executes nothing -/

theorem sep_skips_meta (es : List InvElem)
    (h : ∀ e ∈ es, isRowElem e = false ∧ isClauseElem e = false) :
    ∀ acc : SepResult, (es.foldl invoiceSepStep acc).data = acc.data ∧
      (es.foldl invoiceSepStep acc).clause = acc.clause := by
  induction es with
  | nil => intro acc; exact ⟨rfl, rfl⟩
  | cons e rest ih =>
    intro acc
    have he := h e (List.mem_cons_self e rest)
    have hr := ih (fun x hx => h x (List.mem_cons_of_mem e hx))
    cases e with
    | row r => simp [isRowElem] at he
    | clause c => simp [isClauseElem] at he
    | meta m =>
      simp only [List.foldl_cons]
      have := hr ⟨acc.data, acc.clause, some ((acc.beacons.getD []) ++ [m])⟩
      simpa [invoiceSepStep] using this

/-- C10: a write invoice that (after plugin application) contains neither
value rows nor a filter clause makes `WriteClient.__call__` fall through
all three classification branches: no statement is executed and the call
returns normally, raising no error. -/
theorem writeCall_no_data_no_clause (es : List InvElem)
    (h : ∀ e ∈ es, isRowElem e = false ∧ isClauseElem e = false) :
    writeCall es = [] := by
  obtain ⟨h1, h2⟩ := sep_skips_meta es h ⟨none, none, none⟩
  simp only [writeCall, invoice_separator]
  rw [h1, h2]

/-- Witness: an invoice holding only a plugin beacon issues no statement. -/
theorem writeCall_no_data_no_clause_witness : writeCall [InvElem.meta 0] = [] :=
  writeCall_no_data_no_clause [InvElem.meta 0] (by decide)

/-! ### C1 / C7 — statement-kind classification of `_build_query` -/

/-- Shared case analysis of `_build_query` (used by the C1 and C7
theorems): once the bucket's table resolves, the collected select list,
value rows and filters decide the statement kind exactly as the source's
nested `if`s do. -/
theorem buildQuery_cases (schema : SchemaM) (bn : Name) (st : QState) (t : RTable)
    (ht : resolveBucketTable schema bn = some t) :
    (st.select ≠ [] → buildQuery schema bn st =
        .ok ⟨.selectQ st.select, st.joins, st.filters, st.orders,
             truthyInt st.limit, truthyInt st.offset⟩) ∧
    (st.select = [] → ∀ v vs, st.values = v :: vs → st.filters ≠ [] →
        buildQuery schema bn st =
        .ok ⟨.updateQ t v, st.joins, st.filters, st.orders,
             truthyInt st.limit, truthyInt st.offset⟩) ∧
    (st.select = [] → st.values ≠ [] → st.filters = [] →
        buildQuery schema bn st =
        .ok ⟨.insertQ t st.values, st.joins, st.filters, st.orders,
             truthyInt st.limit, truthyInt st.offset⟩) ∧
    (st.select = [] → st.values = [] → st.filters ≠ [] →
        buildQuery schema bn st =
        .ok ⟨.deleteQ t, st.joins, st.filters, st.orders,
             truthyInt st.limit, truthyInt st.offset⟩) ∧
    (st.select = [] → st.values = [] → st.filters = [] →
        buildQuery schema bn st = .error .cannotDetermineOperation) := by
  cases hsp : mkSpace bn with
  | none => simp [resolveBucketTable, hsp] at ht
  | some sp =>
    cases hgt : getTableE schema sp with
    | error e => simp [resolveBucketTable, hsp, hgt] at ht
    | ok t? =>
      cases t? with
      | none => simp [resolveBucketTable, hsp, hgt] at ht
      | some t' =>
        have hte : t' = t := by simpa [resolveBucketTable, hsp, hgt] using ht
        subst hte
        refine ⟨?_, ?_, ?_, ?_, ?_⟩
        · intro hsel
          cases hs : st.select with
          | nil => exact absurd hs hsel
          | cons a as => simp [buildQuery, hs]
        · intro hsel v vs hv hf
          cases hfs : st.filters with
          | nil => exact absurd hfs hf
          | cons f fs => simp [buildQuery, hsel, hv, hfs, hsp, hgt]
        · intro hsel hvals hf
          cases hvs : st.values with
          | nil => exact absurd hvs hvals
          | cons v vs => simp [buildQuery, hsel, hvs, hf, hsp, hgt]
        · intro hsel hvals hf
          cases hfs : st.filters with
          | nil => exact absurd hfs hf
          | cons f fs => simp [buildQuery, hsel, hvals, hfs, hsp, hgt]
        · intro hsel hvals hfs
          simp [buildQuery, hsel, hvals, hfs, hsp, hgt]

/-- C1: for every bucket whose table resolves, `_build_query` emits a
select when any column was collected; otherwise an update (of the first
value row) when values and a filter were collected, an insert of all value
rows when values but no filter were, a delete when only a filter was, and
the `"Cannot determine operation type"` error when nothing was. -/
theorem build_query_classification (schema : SchemaM) (bn : Name) (st : QState)
    (t : RTable) (ht : resolveBucketTable schema bn = some t) :
    (st.select ≠ [] → buildQuery schema bn st =
        .ok ⟨.selectQ st.select, st.joins, st.filters, st.orders,
             truthyInt st.limit, truthyInt st.offset⟩) ∧
    (st.select = [] → ∀ v vs, st.values = v :: vs → st.filters ≠ [] →
        buildQuery schema bn st =
        .ok ⟨.updateQ t v, st.joins, st.filters, st.orders,
             truthyInt st.limit, truthyInt st.offset⟩) ∧
    (st.select = [] → st.values ≠ [] → st.filters = [] →
        buildQuery schema bn st =
        .ok ⟨.insertQ t st.values, st.joins, st.filters, st.orders,
             truthyInt st.limit, truthyInt st.offset⟩) ∧
    (st.select = [] → st.values = [] → st.filters ≠ [] →
        buildQuery schema bn st =
        .ok ⟨.deleteQ t, st.joins, st.filters, st.orders,
             truthyInt st.limit, truthyInt st.offset⟩) ∧
    (st.select = [] → st.values = [] → st.filters = [] →
        buildQuery schema bn st = .error .cannotDetermineOperation) :=
  buildQuery_cases schema bn st t ht

/-- Witness: on the `book` schema with nothing collected the builder
raises the cannot-determine-operation error, and with only a filter it
deletes. -/
theorem build_query_classification_witness :
    buildQuery sch0 (nm "book") stEmpty = .error .cannotDetermineOperation :=
  (build_query_classification sch0 (nm "book") stEmpty bookT rfl).2.2.2.2 rfl rfl rfl

/-- C7 counterexample: with two value rows and a filter collected the
builder does not raise any error — it succeeds, updating with the first
row only (`self._values[0]`) and silently dropping the second. -/
theorem build_query_multirow_update_no_error :
    buildQuery sch0 (nm "book") st7 =
      .ok ⟨.updateQ bookT row_x, [], [Val.cmp col_id .eq (.lint 5)], [], none, none⟩ := rfl

/-- C7 amended: when more than one value row is collected together with a
filter, the builder emits an update built from the first row only and
ignores the remaining rows; no error is raised. -/
theorem build_query_update_first_row_only (schema : SchemaM) (bn : Name) (st : QState)
    (t : RTable) (ht : resolveBucketTable schema bn = some t) (hsel : st.select = [])
    (v : WRow) (vs : List WRow) (hv : st.values = v :: vs) (hf : st.filters ≠ []) :
    buildQuery schema bn st =
      .ok ⟨.updateQ t v, st.joins, st.filters, st.orders,
           truthyInt st.limit, truthyInt st.offset⟩ :=
  (buildQuery_cases schema bn st t ht).2.1 hsel v vs hv hf

/-- Witness: the two-row-and-filter state updates with the first row. -/
theorem build_query_update_first_row_only_witness :
    buildQuery sch0 (nm "book") st7 =
      .ok ⟨.updateQ bookT row_x, st7.joins, st7.filters, st7.orders,
           truthyInt st7.limit, truthyInt st7.offset⟩ :=
  build_query_update_first_row_only sch0 (nm "book") st7 bookT rfl rfl
    row_x [row_y] rfl (by decide)

/-! ### C2 — the postfix stack machine of `FilterCompiler._compile` -/

/-- C2 counterexample: two pushed atoms with no combinator leave two
elements on the final stack, yet `_compile` succeeds — `stack.pop()`
returns the most recently pushed element and silently discards the other.
No `MalformedExpressionError` exists in the source or is raised. -/
theorem compile_surplus_stack_no_error :
    compileSteps sch0 (some sp0)
        [.atom ⟨nm "id", .cmp .eq (.lint 1)⟩, .atom ⟨nm "title", .cmp .eq (.lstr (nm "X"))⟩] []
      = .ok [.cmp col_title .eq (.lstr (nm "X")), .cmp col_id .eq (.lint 1)] ∧
    compileExpr sch0 (some sp0)
        [.atom ⟨nm "id", .cmp .eq (.lint 1)⟩, .atom ⟨nm "title", .cmp .eq (.lstr (nm "X"))⟩]
      = .ok (.cmp col_title .eq (.lstr (nm "X"))) :=
  ⟨rfl, rfl⟩

theorem compileSteps_wf (s : SchemaM) (sp? : Option Space) :
    ∀ (es : List ExElem) (stack : List Val),
      atomsOk s sp? es = true →
      wfFrom es stack.length = true →
      ∃ v, compileSteps s sp? es stack = .ok [v] := by
  intro es
  induction es with
  | nil =>
    intro stack _ hwf
    simp only [wfFrom, beq_iff_eq] at hwf
    cases stack with
    | nil => simp at hwf
    | cons v t =>
      cases t with
      | nil => exact ⟨v, rfl⟩
      | cons w t' => simp at hwf
  | cons e rest ih =>
    intro stack hatoms hwf
    have hrest : atomsOk s sp? rest = true := by
      simp only [atomsOk, List.all_cons, Bool.and_eq_true] at hatoms
      exact hatoms.2
    cases e with
    | atom c =>
      have hc : isOkE (compileAtom s sp? c) = true := by
        simp only [atomsOk, List.all_cons, Bool.and_eq_true] at hatoms
        exact hatoms.1
      obtain ⟨v, hv⟩ : ∃ v, compileAtom s sp? c = .ok v := by
        cases hca : compileAtom s sp? c with
        | ok v => exact ⟨v, rfl⟩
        | error e => rw [hca] at hc; simp [isOkE] at hc
      have hwf2 : wfFrom rest (v :: stack).length = true := by
        simpa [wfFrom] using hwf
      obtain ⟨w, hw⟩ := ih (v :: stack) hrest hwf2
      exact ⟨w, by simp only [compileSteps, hv]; exact hw⟩
    | andT =>
      simp only [wfFrom, Bool.and_eq_true, decide_eq_true_eq] at hwf
      obtain ⟨h2, hwf⟩ := hwf
      match stack, h2 with
      | a :: b :: t, _ =>
        have hwf2 : wfFrom rest (Val.conj a b :: t).length = true := by
          simpa using hwf
        obtain ⟨w, hw⟩ := ih (Val.conj a b :: t) hrest hwf2
        exact ⟨w, by simp [compileSteps, hw, Except.bind]⟩
    | orT =>
      simp only [wfFrom, Bool.and_eq_true, decide_eq_true_eq] at hwf
      obtain ⟨h2, hwf⟩ := hwf
      match stack, h2 with
      | a :: b :: t, _ =>
        have hwf2 : wfFrom rest (Val.disj a b :: t).length = true := by
          simpa using hwf
        obtain ⟨w, hw⟩ := ih (Val.disj a b :: t) hrest hwf2
        exact ⟨w, by simp [compileSteps, hw, Except.bind]⟩

/-- C2 amended: compilation pushes compiled atoms and, on each `AND`/`OR`
token, pops the two most recently pushed operands and pushes their
conjunction/disjunction; on a well-formed postfix expression exactly one
element remains, which is returned as the predicate root. Malformed
expressions, however, raise no `MalformedExpressionError` (no such error
exists): surplus stack elements are silently discarded and only operand
underflow raises — a plain `IndexError` from `deque.pop`. -/
theorem compile_expr_postfix (s : SchemaM) (sp? : Option Space) (es : List ExElem)
    (hatoms : atomsOk s sp? es = true) (hwf : wfFrom es 0 = true) :
    ∃ v, compileSteps s sp? es [] = .ok [v] ∧ compileExpr s sp? es = .ok v := by
  obtain ⟨v, hv⟩ := compileSteps_wf s sp? es [] hatoms (by simpa using hwf)
  exact ⟨v, hv, by simp only [compileExpr, hv]; rfl⟩

/-- Witness: `id = 1 AND title = "X"` in postfix compiles to a single
conjunction root. -/
theorem compile_expr_postfix_witness :
    ∃ v, compileSteps sch0 (some sp0)
        [.atom ⟨nm "id", .cmp .eq (.lint 1)⟩, .atom ⟨nm "title", .cmp .eq (.lstr (nm "X"))⟩,
         .andT] [] = .ok [v] ∧
      compileExpr sch0 (some sp0)
        [.atom ⟨nm "id", .cmp .eq (.lint 1)⟩, .atom ⟨nm "title", .cmp .eq (.lstr (nm "X"))⟩,
         .andT] = .ok v :=
  compile_expr_postfix sch0 (some sp0)
    [.atom ⟨nm "id", .cmp .eq (.lint 1)⟩, .atom ⟨nm "title", .cmp .eq (.lstr (nm "X"))⟩,
     .andT] (by decide) (by decide)

/-! ### C6 — `_range_clause` at zero, one and two bounds -/

/-- C6: zero non-null bounds yield Python `None` and two bounds yield the
conjunction of both compiled bounds, as claimed; but exactly one non-null
bound yields `params[0]` — the raw, uncompiled notation `Clause` object —
instead of that bound's compiled predicate (every other compiler branch
returns a compiled sqlalchemy expression; this is the code slip). -/
theorem range_clause_bounds :
    rangeClause sch0 (some sp0) (nm "id") [none, none] = .ok Val.pynone ∧
    rangeClause sch0 (some sp0) (nm "id") [some (.ge, .lint 5), some (.le, .lint 9)]
      = .ok (.conj (.cmp col_id .ge (.lint 5)) (.cmp col_id .le (.lint 9))) ∧
    rangeClause sch0 (some sp0) (nm "id") [some (.ge, .lint 5), none]
      = .ok (.rawClause ⟨nm "id", .cmp .ge (.lint 5)⟩) ∧
    Val.rawClause ⟨nm "id", .cmp .ge (.lint 5)⟩ ≠ Val.cmp col_id .ge (.lint 5) :=
  ⟨rfl, rfl, rfl, fun h => Val.noConfusion h⟩

/-! ### C9 — `get_column` returns absent, never throws -/

/-- C9: whenever the address's table is unknown to the schema or the
resolved table has no column of the requested name, `get_column` returns
`None`: every such failure surfaces inside the `try:` block as an
`AttributeError` (`None.alias`, `None.c`, or the missing attribute on
`table.c`) and the `except AttributeError` handler turns it into `None`
rather than letting anything propagate. -/
theorem get_column_absent (s : SchemaM) (a : AddressM) (u : TrackUnit)
    (hu : a.space.getLast? = some u)
    (h : Option.all (fun t => !(decide (a.name ∈ t.columns)))
          (s.tables.find? (fun tb => tb.name = u.name)) = true) :
    get_column s a = .ok none := by
  have hraw : getColumnRaw s a = .error .attrError := by
    cases hf : s.tables.find? (fun tb => tb.name = u.name) with
    | none =>
      by_cases hq : u.label.isSome ∨ u.qua.isSome
      · have hgt : getTableE s a.space = .error .attrError := by
          simp only [getTableE, hu, hf, if_pos hq]
        simp only [getColumnRaw, hgt]
      · have hgt : getTableE s a.space = .ok none := by
          simp only [getTableE, hu, hf, if_neg hq]
        simp only [getColumnRaw, hgt]
    | some t =>
      have hnc : a.name ∉ t.columns := by
        rw [hf] at h
        simpa [Option.all] using h
      by_cases hq : u.label.isSome ∨ u.qua.isSome
      · have hgt : getTableE s a.space = .ok (some ⟨t, some (spaceStr a.space)⟩) := by
          simp only [getTableE, hu, hf, if_pos hq]
        simp only [getColumnRaw, hgt, if_neg hnc]
      · have hgt : getTableE s a.space = .ok (some ⟨t, none⟩) := by
          simp only [getTableE, hu, hf, if_neg hq]
        simp only [getColumnRaw, hgt, if_neg hnc]
  unfold get_column
  rw [hraw]

/-- Witness: resolving the unknown column `isbn` on `book` yields `None`
without an exception. -/
theorem get_column_absent_witness :
    get_column sch0 ⟨nm "isbn", sp0⟩ = .ok none :=
  get_column_absent sch0 ⟨nm "isbn", sp0⟩ ⟨nm "book", none, none⟩ rfl (by decide)

/-! ### C4 — the label/round-trip behavior of `get_column` -/

/-- C4 counterexample: for the valid pair (table `b`, column `c`) at the
depth-2 address `a__b`, `get_column` labels the column `"b__c"` — the
string of the address with its root unit dropped (`space.slice(1, None)`)
— not the address's own qualified string `"a__b__c"`; parsing the alias
back gives the address `⟨c, b⟩`, which is not the original `⟨c, a__b⟩`. -/
theorem get_column_roundtrip_cex :
    get_column sch4 addr4
      = .ok (some ⟨⟨⟨nm "b", [nm "c"]⟩, none⟩, nm "c", some (nm "b__c")⟩) ∧
    addressOfString (nm "b__c") = some ⟨nm "c", [⟨nm "b", none, none⟩]⟩ ∧
    (⟨nm "c", [⟨nm "b", none, none⟩]⟩ : AddressM) ≠ addr4 ∧
    (some (nm "b__c") : Option Name) ≠ some (addrStr addr4) :=
  ⟨rfl, rfl, by decide, by decide⟩

theorem joinUU_append_single (ps : List (List Char)) (q : List Char) (h : ps ≠ []) :
    joinUU (ps ++ [q]) = joinUU ps ++ '_' :: '_' :: q := by
  induction ps with
  | nil => exact absurd rfl h
  | cons p rest ih =>
    cases rest with
    | nil => rfl
    | cons p2 rest2 =>
      have h2 := ih (List.cons_ne_nil p2 rest2)
      calc joinUU ((p :: p2 :: rest2) ++ [q])
          = p ++ '_' :: '_' :: joinUU ((p2 :: rest2) ++ [q]) := rfl
        _ = p ++ '_' :: '_' :: (joinUU (p2 :: rest2) ++ '_' :: '_' :: q) := by rw [h2]
        _ = (p ++ '_' :: '_' :: joinUU (p2 :: rest2)) ++ '_' :: '_' :: q := by simp
        _ = joinUU (p :: p2 :: rest2) ++ '_' :: '_' :: q := rfl

/-- Parsing the printed form of an address of plain separator-free names
recovers the address. -/
theorem addressOfString_addrStr (n : Name) (sp : Space) (hsp : sp ≠ [])
    (hplain : ∀ u ∈ sp, PlainUnit u) (hn : '_' ∉ n) :
    addressOfString (addrStr ⟨n, sp⟩) = some ⟨n, sp⟩ := by
  have hstr : addrStr ⟨n, sp⟩ = joinUU (sp.map unitStr ++ [n]) := by
    rw [addrStr, spaceStr, joinUU_append_single _ _ (by simpa using hsp)]
  have hsplit : splitOnUU (joinUU (sp.map unitStr ++ [n])) = sp.map unitStr ++ [n] := by
    apply splitOnUU_joinUU
    · simp
    · intro p hp
      rcases List.mem_append.mp hp with h | h
      · obtain ⟨u, hu, rfl⟩ := List.mem_map.mp h
        rw [unitStr_plain u (hplain u hu)]
        exact (hplain u hu).2.2.1
      · simp only [List.mem_singleton] at h
        subst h
        exact hn
  unfold addressOfString
  simp only [hstr, hsplit, List.getLast?_concat, List.dropLast_concat,
    parseUnits_map_unitStr sp hplain]

/-- C4 amended: for every valid (table, column) pair at an address of
depth greater than 1 whose units are plain separator-free names, the
resolved column is labeled with the string of the address with its root
unit removed (`space.slice(1, None)`), and parsing that alias back yields
exactly the original address minus its root: the root table is implicit
in a flattened row, so the round trip is the identity only on the
root-stripped address. -/
theorem get_column_label_roundtrip (s : SchemaM) (a : AddressM) (c : ColumnM)
    (hplain : ∀ u ∈ a.space, PlainUnit u) (hn : '_' ∉ a.name)
    (hdepth : 2 ≤ a.space.length)
    (hok : get_column s a = .ok (some c)) :
    c.label = some (addrStr ⟨a.name, a.space.drop 1⟩) ∧
    addressOfString (addrStr ⟨a.name, a.space.drop 1⟩) = some ⟨a.name, a.space.drop 1⟩ := by
  have hdrop : a.space.drop 1 ≠ [] := by
    intro hd
    have hlen := congrArg List.length hd
    rw [List.length_drop] at hlen
    simp at hlen
    omega
  have hplaindrop : ∀ u ∈ a.space.drop 1, PlainUnit u :=
    fun u hu => hplain u (List.mem_of_mem_drop hu)
  have hms : mkSpace (joinUU ((a.space.drop 1).map unitStr)) = some (a.space.drop 1) :=
    mkSpace_spaceStr _ hdrop hplaindrop
  have hraw : getColumnRaw s a = .ok c := by
    unfold get_column at hok
    cases hr : getColumnRaw s a with
    | ok c' => rw [hr] at hok; simpa using hok
    | error e => rw [hr] at hok; cases e <;> simp at hok
  refine ⟨?_, addressOfString_addrStr a.name (a.space.drop 1) hdrop hplaindrop hn⟩
  unfold getColumnRaw at hraw
  cases hgt : getTableE s a.space with
  | error e => rw [hgt] at hraw; simp at hraw
  | ok rt? =>
    rw [hgt] at hraw
    cases rt? with
    | none => simp at hraw
    | some rt =>
      dsimp only at hraw
      by_cases hmem : a.name ∈ rt.table.columns
      · rw [if_pos hmem] at hraw
        cases hd : a.space.drop 1 with
        | nil => exact absurd hd hdrop
        | cons d ds =>
          rw [hd] at hraw hms
          dsimp only at hraw
          rw [hms] at hraw
          have : ColumnM.mk rt a.name (some (addrStr ⟨a.name, d :: ds⟩)) = c := by
            simpa using hraw
          rw [← this]
      · rw [if_neg hmem] at hraw
        simp at hraw

/-- Witness: on the `a`/`b(c)` schema the depth-2 address round-trips to
itself minus the root. -/
theorem get_column_label_roundtrip_witness :
    (⟨⟨⟨nm "b", [nm "c"]⟩, none⟩, nm "c", some (nm "b__c")⟩ : ColumnM).label
        = some (addrStr ⟨addr4.name, addr4.space.drop 1⟩) ∧
    addressOfString (addrStr ⟨addr4.name, addr4.space.drop 1⟩)
        = some ⟨addr4.name, addr4.space.drop 1⟩ :=
  get_column_label_roundtrip sch4 addr4 _ (by decide) (by decide) (by decide) rfl

/-! ### C3 — the collapse-none pass -/

/-- C3 counterexample: in `{a: {b: {c: None}}}` every leaf below `a` is
null, yet the collapse pass keeps `a` as an object — `{a: {b: None}}` —
because `any(_ is not None ...)` looks only at direct values and the
direct value `{c: None}` is a dict, not `None`. The claim would require
`{a: None}`. -/
theorem collapse_none_depth2_cex :
    collapseFields [(nm "a", .obj [(nm "b", .obj [(nm "c", PyVal.pnone)])])]
      = some [(nm "a", .obj [(nm "b", PyVal.pnone)])] ∧
    allLeavesNull (.obj [(nm "b", .obj [(nm "c", PyVal.pnone)])]) = true ∧
    PyVal.obj [(nm "b", PyVal.pnone)] ≠ PyVal.pnone := by
  refine ⟨?_, ?_, fun h => PyVal.noConfusion h⟩
  · simp [collapseFields, anyEntryNonNone, isPNone]
  · simp [allLeavesNull, allLeavesNullFields]

theorem collapseFields_atomic (fs : Fields) (h : ∀ p ∈ fs, isAtomicVal p.2 = true) :
    collapseFields fs = some fs := by
  induction fs with
  | nil => simp [collapseFields]
  | cons p rest ih =>
    obtain ⟨k, v⟩ := p
    have hv := h (k, v) (List.mem_cons_self _ _)
    have hrest := ih (fun q hq => h q (List.mem_cons_of_mem _ hq))
    cases v with
    | obj fs2 => simp [isAtomicVal] at hv
    | arr items => simp [isAtomicVal] at hv
    | pnone => simp [collapseFields, hrest]
    | pstr s2 => simp [collapseFields, hrest]
    | pint n2 => simp [collapseFields, hrest]

theorem allLeavesNullFields_atomic (fs : Fields) (h : ∀ p ∈ fs, isAtomicVal p.2 = true) :
    allLeavesNullFields fs = fs.all (fun p => isPNone p.2) := by
  induction fs with
  | nil => simp [allLeavesNullFields]
  | cons p rest ih =>
    obtain ⟨k, v⟩ := p
    have hv := h (k, v) (List.mem_cons_self _ _)
    have hrest := ih (fun q hq => h q (List.mem_cons_of_mem _ hq))
    cases v with
    | obj fs2 => simp [isAtomicVal] at hv
    | arr items => simp [isAtomicVal] at hv
    | pnone => simp [allLeavesNullFields, allLeavesNull, isPNone, hrest]
    | pstr s2 => simp [allLeavesNullFields, allLeavesNull, isPNone, hrest]
    | pint n2 => simp [allLeavesNullFields, allLeavesNull, isPNone, hrest]

theorem anyEntryNonNone_atomic (fs : Fields) (h : ∀ p ∈ fs, isAtomicVal p.2 = true) :
    anyEntryNonNone fs = !allLeavesNullFields fs := by
  rw [allLeavesNullFields_atomic fs h, anyEntryNonNone, List.all_eq_not_any_not]
  simp

/-- C3 amended: the collapse test is one level deep — a nested mapping is
replaced by null exactly when all of its DIRECT values are null, and kept
(recursively collapsed) otherwise. For a nested mapping whose values are
all atomic, the direct values are exactly its leaves, so such an object
collapses to null iff every leaf is null and is retained unchanged iff at
least one leaf is non-null; but the test does not look through deeper
nesting, so an object that contains a sub-object is retained even when all
of its leaves are null (see the counterexample). -/
theorem collapse_one_level (k : Name) (fs rest : Fields)
    (h : ∀ p ∈ fs, isAtomicVal p.2 = true) :
    collapseFields ((k, PyVal.obj fs) :: rest)
      = (collapseFields rest).map
          (fun r => (k, if allLeavesNull (PyVal.obj fs) then PyVal.pnone
                        else PyVal.obj fs) :: r) := by
  have hany : anyEntryNonNone fs = !allLeavesNullFields fs := anyEntryNonNone_atomic fs h
  have hcol := collapseFields_atomic fs h
  have hleaves : allLeavesNull (PyVal.obj fs) = allLeavesNullFields fs := by
    simp [allLeavesNull]
  cases hall : allLeavesNullFields fs with
  | true =>
    have hfalse : anyEntryNonNone fs = false := by rw [hany, hall]; rfl
    rw [hleaves] at *
    simp [collapseFields, hfalse, hall]
    cases hr : collapseFields rest <;> simp
  | false =>
    have htrue : anyEntryNonNone fs = true := by rw [hany, hall]; rfl
    rw [hleaves] at *
    simp [collapseFields, htrue, hall, hcol]
    cases hr : collapseFields rest <;> simp

/-- Witness: a flat all-null nested object collapses to null in place. -/
theorem collapse_one_level_witness :
    collapseFields [(nm "a", PyVal.obj [(nm "x", PyVal.pnone)])]
      = (collapseFields []).map
          (fun r => (nm "a", if allLeavesNull (PyVal.obj [(nm "x", PyVal.pnone)])
                             then PyVal.pnone
                             else PyVal.obj [(nm "x", PyVal.pnone)]) :: r) :=
  collapse_one_level (nm "a") [(nm "x", PyVal.pnone)] [] (by decide)

/-! ### C5 — total-count extraction of the read path -/

theorem nestifyVal_atomic (v : PyVal) (h : isAtomicVal v = true) :
    nestifyVal v = some v := by
  cases v with
  | obj fs => simp [isAtomicVal] at h
  | arr items => simp [isAtomicVal] at h
  | pnone => simp [nestifyVal]
  | pstr s => simp [nestifyVal]
  | pint n => simp [nestifyVal]

theorem nestifyFields_flat (row : List (Name × PyVal)) :
    ∀ out : Fields,
      (∀ p ∈ row, splitOnUU p.1 = [p.1] ∧ isAtomicVal p.2 = true) →
      (∀ p ∈ row, getField out p.1 = none) →
      (row.map Prod.fst).Nodup →
      nestifyFields row out = some (out ++ row) := by
  induction row with
  | nil => intro out _ _ _; simp [nestifyFields]
  | cons p rest ih =>
    intro out hflat hnone hnodup
    obtain ⟨k, v⟩ := p
    have hk := (hflat (k, v) (List.mem_cons_self _ _)).1
    have hv := (hflat (k, v) (List.mem_cons_self _ _)).2
    have hnv : nestifyVal v = some v := nestifyVal_atomic v hv
    have hgk : getField out k = none := hnone (k, v) (List.mem_cons_self _ _)
    have hset : setField out k v = out ++ [(k, v)] := setField_of_getField_none out k v hgk
    have hnodup2 : k ∉ rest.map Prod.fst ∧ (rest.map Prod.fst).Nodup :=
      List.nodup_cons.mp hnodup
    have hrest : ∀ q ∈ rest, getField (out ++ [(k, v)]) q.1 = none := by
      intro q hq
      have h1 : getField out q.1 = none := hnone q (List.mem_cons_of_mem _ hq)
      rw [getField_append_left_none _ _ _ h1]
      have hne : ¬(k = q.1) := by
        intro he
        exact hnodup2.1 (he ▸ List.mem_map_of_mem Prod.fst hq)
      simp [getField, hne]
    have hrec := ih (out ++ [(k, v)])
      (fun q hq => hflat q (List.mem_cons_of_mem _ hq)) hrest hnodup2.2
    simp only [nestifyFields, hnv, hk, insertPath]
    show nestifyFields rest (setField out k v) = some (out ++ (k, v) :: rest)
    rw [hset, hrec]
    simp

theorem squeeze_flat (row : Fields)
    (hflat : ∀ p ∈ row, splitOnUU p.1 = [p.1] ∧ isAtomicVal p.2 = true)
    (hnodup : (row.map Prod.fst).Nodup) :
    squeeze row = some row := by
  have h1 : nestifyFields row [] = some row := by
    simpa using nestifyFields_flat row [] hflat (fun p _ => rfl) hnodup
  have h2 : collapseFields row = some row :=
    collapseFields_atomic row (fun p hp => (hflat p hp).2)
  simp [squeeze, h1, h2]

theorem readRows_flat (rows : List Fields) (h : ∀ row ∈ rows, FlatTotalRow row) :
    ∀ meta0 : Option PyVal,
      readRows false [] rows meta0 =
        some (rows.map (fun r => delField r TOTAL_QUERY_FIELD), headTotalMeta meta0 rows) := by
  induction rows with
  | nil => intro meta0; cases meta0 <;> rfl
  | cons r rest ih =>
    intro meta0
    obtain ⟨hflat, hnodup, htot⟩ := h r (List.mem_cons_self _ _)
    have hsq : squeeze r = some r := squeeze_flat r hflat hnodup
    have hrest := ih (fun q hq => h q (List.mem_cons_of_mem _ hq))
    have hstep : ∀ m, readRowStep false [] m r
        = some (delField r TOTAL_QUERY_FIELD,
                match m with
                | none => some (getFieldD r TOTAL_QUERY_FIELD)
                | some mm => some mm) := by
      intro m
      simp [readRowStep, hsq, htot]
    cases meta0 with
    | none =>
      simp only [readRows, hstep, hrest, headTotalMeta, attachRow, List.map_cons]
    | some m =>
      simp only [readRows, hstep, hrest, headTotalMeta, attachRow, List.map_cons]

/-- C5 counterexample: with zero returned rows the loop body of
`ReadExecutor.__call__` never runs, `meta` stays `None`, and the view
reports no total at all — not a total of zero as the claim states. -/
theorem read_executor_zero_rows_no_total :
    readLoop false [] [] = some ([], none) ∧
    (none : Option PyVal) ≠ some (PyVal.pint 0) :=
  ⟨rfl, fun h => Option.noConfusion h⟩

/-- C5 amended: over flat rows the ReadExecutor takes the count value from
the first returned row exactly once (`if meta is None`), removes the
synthetic `_total` field from every returned row, and reports the count as
result meta; but when zero rows are returned it reports no meta at all
(`None`) rather than a total of zero — only the plugin path
(`TotalPlugin.get_result`) reports `{total: 0}` for an empty result. -/
theorem read_loop_total (rows : List Fields) (h : ∀ row ∈ rows, FlatTotalRow row) :
    readLoop false [] rows =
      some (rows.map (fun r => delField r TOTAL_QUERY_FIELD), headTotalMeta none rows) ∧
    totalPluginResult [] = some [(TOTAL_FIELD_NAME, PyVal.pint 0)] :=
  ⟨readRows_flat rows h none, rfl⟩

/-- Witness: two rows with total 7 yield data minus the synthetic field
and meta total 7. -/
theorem read_loop_total_witness :
    readLoop false [] rows2 =
      some (rows2.map (fun r => delField r TOTAL_QUERY_FIELD), headTotalMeta none rows2) ∧
    totalPluginResult [] = some [(TOTAL_FIELD_NAME, PyVal.pint 0)] :=
  read_loop_total rows2 (by decide)

/-! ### C8 — child-list attachment is always a (possibly empty) list -/

theorem idxLookup_miss (idx : IndexMap) (key : PyVal)
    (h : ∀ p ∈ idx, pyBeq p.1 key = false) : idxLookup idx key = [] := by
  induction idx with
  | nil => rfl
  | cons p rest ih =>
    obtain ⟨k, rows⟩ := p
    have hp : pyBeq k key = false := h (k, rows) (List.mem_cons_self _ _)
    simp [idxLookup, hp, ih (fun q hq => h q (List.mem_cons_of_mem _ hq))]

theorem attachRow_outside (rest : List NestedEntry) (r : Fields) (sub : Name)
    (h : sub ∉ rest.map (fun e => e.1.1)) :
    getField (attachRow rest r) sub = getField r sub := by
  induction rest generalizing r with
  | nil => rfl
  | cons e rest2 ih =>
    obtain ⟨⟨s2, kc⟩, idx⟩ := e
    simp only [List.map_cons, List.mem_cons, not_or] at h
    simp only [attachRow]
    rw [ih _ h.2]
    exact getField_setField_ne r sub s2 _ h.1

/-- C8: merging attaches, under each deferred child's field name, the
indexed child-row list looked up by the parent's key value — always a
list, present in every parent row; and when no child row matches the
parent's key, the attached value is exactly the empty list (never null,
never absent). -/
theorem attach_child_lists (nested : List NestedEntry) (row : Fields)
    (hnodup : (nested.map (fun e => e.1.1)).Nodup)
    (hdisj : ∀ e1 ∈ nested, ∀ e2 ∈ nested, e1.1.1 ≠ e2.1.2) :
    ∀ e ∈ nested,
      getField (attachRow nested row) e.1.1
        = some (PyVal.arr ((idxLookup e.2 (getFieldD row e.1.2)).map PyVal.obj)) ∧
      ((∀ p ∈ e.2, pyBeq p.1 (getFieldD row e.1.2) = false) →
        getField (attachRow nested row) e.1.1 = some (PyVal.arr [])) := by
  induction nested generalizing row with
  | nil => intro e he; exact absurd he (List.not_mem_nil e)
  | cons hd rest ih =>
    intro e he
    obtain ⟨⟨sub, kc⟩, idx⟩ := hd
    have hnodup2 : sub ∉ rest.map (fun e => e.1.1) ∧ (rest.map (fun e => e.1.1)).Nodup := by
      simpa [List.nodup_cons] using hnodup
    rcases List.mem_cons.mp he with rfl | hmem
    · have hmain : getField (attachRow (⟨⟨sub, kc⟩, idx⟩ :: rest) row) sub
          = some (PyVal.arr ((idxLookup idx (getFieldD row kc)).map PyVal.obj)) := by
        simp only [attachRow]
        rw [attachRow_outside rest _ sub hnodup2.1, getField_setField_self]
      refine ⟨hmain, fun hmiss => ?_⟩
      rw [hmain, idxLookup_miss _ _ hmiss]
      simp
    · have hdisj2 : ∀ e1 ∈ rest, ∀ e2 ∈ rest, e1.1.1 ≠ e2.1.2 := fun e1 h1 e2 h2 =>
        hdisj e1 (List.mem_cons_of_mem _ h1) e2 (List.mem_cons_of_mem _ h2)
      have hkey : getFieldD (setField row sub
            (PyVal.arr ((idxLookup idx (getFieldD row kc)).map PyVal.obj))) e.1.2
          = getFieldD row e.1.2 := by
        have hne : e.1.2 ≠ sub := by
          have := hdisj ⟨⟨sub, kc⟩, idx⟩ (List.mem_cons_self _ _) e (List.mem_cons_of_mem _ hmem)
          exact fun h2 => this (by simpa using h2.symm)
        unfold getFieldD
        rw [getField_setField_ne _ _ _ _ hne]
      have hrec := ih (setField row sub
          (PyVal.arr ((idxLookup idx (getFieldD row kc)).map PyVal.obj)))
        hnodup2.2 hdisj2 e hmem
      rw [hkey] at hrec
      simpa only [attachRow] using hrec

/-- Witness: a parent row with key 2 and an index holding only key 1 gets
`reviews` attached as the empty list, present and a list. -/
theorem attach_child_lists_witness :
    getField (attachRow nestedW rowW) (nm "reviews")
      = some (PyVal.arr ((idxLookup [(PyVal.pint 1, [[(nm "text", PyVal.pstr (nm "ok"))]])]
          (getFieldD rowW (nm "id"))).map PyVal.obj)) ∧
    ((∀ p ∈ [(PyVal.pint 1, [[(nm "text", PyVal.pstr (nm "ok"))]])],
        pyBeq p.1 (getFieldD rowW (nm "id")) = false) →
      getField (attachRow nestedW rowW) (nm "reviews") = some (PyVal.arr [])) :=
  attach_child_lists nestedW rowW (by decide) (by decide)
    ((nm "reviews", nm "id"), [(PyVal.pint 1, [[(nm "text", PyVal.pstr (nm "ok"))]])])
    (List.mem_cons_self _ _)

end Hermitage
